import Mathlib

/-!
Shallow embedding of `FileBackend` from
`src/tree_store/page_store/file_backend/optimized.rs` (redb).

The backend wraps one open file handle and a `lock_supported` flag.  The
file's byte content is modelled as a `List Nat`; OS positional-I/O
primitives (`read_exact_at`, `write_all_at`, `seek_read`, `seek_write`,
`set_len`) are modelled by pure functions on that list, following the
documented semantics of the Rust standard library calls the source uses.
Fallible operations return `IOResult`.  The Windows retry loops are
embedded with an explicit fuel parameter: `none` means the loop has not
terminated within the given fuel (for any fuel), i.e. divergence.
-/

/-- Result of a fallible I/O operation: success with a value, or an I/O
error (the error payload is irrelevant to the properties proved here). -/
inductive IOResult (α : Type) where
  | ok (a : α)
  | err
  deriving Repr, DecidableEq

/-- `FileBackend` state from the source: one open file handle (its content
is threaded separately as a `List Nat`) plus the `lock_supported` flag
fixed at construction time. -/
structure FileBackend where
  lock_supported : Bool
  deriving Repr, DecidableEq

/-- Error kinds relevant to `FileBackend::new`: `std::io::ErrorKind::Unsupported`
versus any other OS error (identified by an abstract code). -/
inductive ErrorKind where
  | unsupported
  | other (code : Nat)
  deriving Repr, DecidableEq

/-- Outcome of `File::try_lock()` in the source: `Ok(())`,
`Err(TryLockError::WouldBlock)`, or `Err(TryLockError::Error(err))`. -/
inductive TryLockResult where
  | ok
  | wouldBlock
  | error (kind : ErrorKind)
  deriving Repr, DecidableEq

/-- Outcome of `FileBackend::new`: a constructed backend, the distinguished
`DatabaseError::DatabaseAlreadyOpen`, or a propagated I/O error. -/
inductive NewResult where
  | success (backend : FileBackend)
  | databaseAlreadyOpen
  | ioError (kind : ErrorKind)
  deriving Repr, DecidableEq

/-- `FileBackend::new(file)`: match on `file.try_lock()`.
`Ok(())` constructs with `lock_supported = true`;
`Err(WouldBlock)` returns `DatabaseError::DatabaseAlreadyOpen`;
`Err(Error(err))` with `err.kind() == Unsupported` constructs (after a
warning) with `lock_supported = false`; any other error is propagated. -/
def FileBackend.new (r : TryLockResult) : NewResult :=
  match r with
  | .ok => .success { lock_supported := true }
  | .wouldBlock => .databaseAlreadyOpen
  | .error kind =>
      if kind = .unsupported then .success { lock_supported := false }
      else .ioError kind

/-- `FileBackend::close`: `if self.lock_supported { self.file.unlock()?; } Ok(())`.
The OS `unlock` call's outcome is passed in as `unlockResult`. -/
def FileBackend.close (b : FileBackend) (unlockResult : IOResult Unit) :
    IOResult Unit :=
  if b.lock_supported then unlockResult else .ok ()

/-- OS-level view of one `close` call when every `unlock` succeeds:
given whether the advisory lock is currently held by this process, returns
the new held state and whether this call actually released a held lock.
`File::unlock` on a file whose lock is not held succeeds without releasing
anything. -/
def closeStep (b : FileBackend) (held : Bool) : Bool × Bool :=
  if b.lock_supported then (false, held) else (held, false)

/-- Number of actual lock releases performed by `n` successive successful
`close` calls, starting from lock-held state `held`. -/
def closeReleases (b : FileBackend) : Bool → Nat → Nat
  | _, 0 => 0
  | held, n + 1 =>
      (if (closeStep b held).2 then 1 else 0) +
        closeReleases b (closeStep b held).1 n

/-- Which durability primitive a `sync_data` call invokes. -/
inductive SyncPrimitive where
  | fullSync
  | barrierFsync
  deriving Repr, DecidableEq

/-- Result of `sync_data`, keeping the OS error code so that "the error
comes from the platform's last-error mechanism" is expressible. -/
inductive SyncResult where
  | ok
  | ioError (code : Nat)
  deriving Repr, DecidableEq

/-- `FileBackend::sync_data` on every platform except macOS
(`#[cfg(not(target_os = "macos"))]`): ignores the flag and performs
`self.file.sync_data()`, whose outcome is `fullSyncResult`. -/
def sync_data_generic (_eventual : Bool) (fullSyncResult : SyncResult) :
    SyncResult :=
  fullSyncResult

/-- Primitive used by the non-macOS `sync_data`. -/
def sync_primitive_generic (_eventual : Bool) : SyncPrimitive :=
  .fullSync

/-- `FileBackend::sync_data` on macOS: if `eventual`, call
`fcntl(fd, F_BARRIERFSYNC)`; a return code of `-1` is surfaced as
`io::Error::last_os_error()` (code `lastOsError`), otherwise `Ok(())`.
If not `eventual`, perform `self.file.sync_data()`. -/
def sync_data_macos (eventual : Bool) (barrierCode : Int) (lastOsError : Nat)
    (fullSyncResult : SyncResult) : SyncResult :=
  if eventual then
    if barrierCode = -1 then .ioError lastOsError else .ok
  else fullSyncResult

/-- Primitive used by the macOS `sync_data`. -/
def sync_primitive_macos (eventual : Bool) : SyncPrimitive :=
  if eventual then .barrierFsync else .fullSync

/-- OS file-resize primitive used by `FileBackend::set_len`
(`File::set_len`): truncate to `len` bytes, or extend with zero bytes. -/
def set_len (f : List Nat) (len : Nat) : List Nat :=
  if len ≤ f.length then f.take len
  else f ++ List.replicate (len - f.length) 0

/-- `FileBackend::len`: `self.file.metadata()?.len()`, the file size. -/
def FileBackend.lenOf (f : List Nat) : Nat :=
  f.length

/-- OS positional-write primitive `pwrite`/`write_all_at` semantics on a
file: overwrite bytes `[offset, offset + data.length)`, zero-filling any
gap past the old end and extending the file if the write reaches past EOF.
`write_all_at` on an empty buffer performs no OS call (`while !buf.is_empty()`)
and leaves the file untouched. -/
def write_all_at (f : List Nat) (offset : Nat) (data : List Nat) : List Nat :=
  if data.isEmpty then f
  else
    List.ofFn fun j : Fin (max f.length (offset + data.length)) =>
      if offset ≤ (j : Nat) ∧ (j : Nat) < offset + data.length then
        data.getD ((j : Nat) - offset) 0
      else f.getD (j : Nat) 0

/-- `FileBackend::write` on `#[cfg(any(unix, target_os = "wasi"))]`:
`self.file.write_all_at(data, offset)`. -/
def FileBackend.write_unix (f : List Nat) (offset : Nat) (data : List Nat) :
    List Nat :=
  write_all_at f offset data

/-- OS `read_exact_at` semantics (`FileExt::read_exact_at`): fill the whole
`len`-byte buffer from position `offset`, or fail with `UnexpectedEof` when
the file ends first.  An empty buffer is filled trivially without touching
the file. -/
def read_exact_at (f : List Nat) (offset len : Nat) : IOResult (List Nat) :=
  if len = 0 then .ok []
  else if offset + len ≤ f.length then .ok ((f.drop offset).take len)
  else .err

/-- `FileBackend::read` on `#[cfg(any(unix, target_os = "wasi"))]`:
allocate `vec![0; len]`, `read_exact_at` into it, return the buffer. -/
def FileBackend.read_unix (f : List Nat) (offset len : Nat) :
    IOResult (List Nat) :=
  read_exact_at f offset len

/-- Copy `chunk` into `buf` starting at index `i`
(`buffer[data_offset..][..chunk.len()].copy_from_slice(chunk)`);
the buffer's length never changes. -/
def writeRange (buf : List Nat) (i : Nat) (chunk : List Nat) : List Nat :=
  List.ofFn fun j : Fin buf.length =>
    if i ≤ (j : Nat) ∧ (j : Nat) < i + chunk.length then
      chunk.getD ((j : Nat) - i) 0
    else buf.get j

/-- Bytes produced by one Windows `seek_read(&mut buffer[data_offset..], offset)`
call: the OS returns some prefix of the file contents at `offset`, at most
`want` bytes (the remaining buffer space) and at most `cap` bytes (a short
read chosen by the environment).  At or past EOF this is empty (`Ok(0)`). -/
def seek_read_chunk (f : List Nat) (offset want cap : Nat) : List Nat :=
  (f.drop offset).take (min want cap)

/-- The Windows `FileBackend::read` retry loop, with explicit fuel:
`while data_offset < buffer.len() { let read = seek_read(...)?;
offset += read; data_offset += read; }`.  `sched i` is the short-read cap
the environment imposes on the `i`-th call; `none` means the loop did not
terminate within `fuel` iterations. -/
def read_loop (f : List Nat) (sched : Nat → Nat) :
    Nat → Nat → Nat → List Nat → Nat → Option (List Nat)
  | 0, _, dataOffset, buffer, _ =>
      if dataOffset < buffer.length then none else some buffer
  | fuel + 1, offset, dataOffset, buffer, i =>
      if dataOffset < buffer.length then
        let chunk := seek_read_chunk f offset (buffer.length - dataOffset) (sched i)
        read_loop f sched fuel (offset + chunk.length) (dataOffset + chunk.length)
          (writeRange buffer dataOffset chunk) (i + 1)
      else some buffer

/-- `FileBackend::read` on `#[cfg(windows)]`: start from `vec![0; len]`
with `data_offset = 0` and run the retry loop. -/
def FileBackend.read_windows (f : List Nat) (sched : Nat → Nat)
    (fuel offset len : Nat) : Option (List Nat) :=
  read_loop f sched fuel offset 0 (List.replicate len 0) 0

/-- The Windows `FileBackend::write` retry loop, with explicit fuel:
`while data_offset < data.len() { let written = seek_write(&data[data_offset..], offset)?;
offset += written; data_offset += written; }`.  Each `seek_write` call
writes the next `min (remaining) (sched i)` bytes of `data` into the file
at `offset` (pwrite semantics, extending past EOF); `sched i` is the
environment's short-write cap on the `i`-th call.  `none` means the loop
did not terminate within `fuel` iterations; `some f'` is the final file. -/
def write_loop (sched : Nat → Nat) :
    Nat → Nat → Nat → List Nat → List Nat → Nat → Option (List Nat)
  | 0, _, dataOffset, data, f, _ =>
      if dataOffset < data.length then none else some f
  | fuel + 1, offset, dataOffset, data, f, i =>
      if dataOffset < data.length then
        let w := min (data.length - dataOffset) (sched i)
        write_loop sched fuel (offset + w) (dataOffset + w) data
          (write_all_at f offset ((data.drop dataOffset).take w)) (i + 1)
      else some f

/-- `FileBackend::write` on `#[cfg(windows)]`: run the retry loop starting
at `data_offset = 0`. -/
def FileBackend.write_windows (f : List Nat) (sched : Nat → Nat)
    (fuel offset : Nat) (data : List Nat) : Option (List Nat) :=
  write_loop sched fuel offset 0 data f 0

/-! ### Helper lemmas -/

theorem length_writeRange (buf chunk : List Nat) (i : Nat) :
    (writeRange buf i chunk).length = buf.length := by
  simp [writeRange]

theorem writeRange_nil (buf : List Nat) (i : Nat) :
    writeRange buf i [] = buf := by
  have h : ∀ j : Fin buf.length,
      ¬(i ≤ (j : Nat) ∧ (j : Nat) < i + ([] : List Nat).length) := by
    intro j hj
    simp at hj
    omega
  simp only [writeRange, h, if_false, ite_false]
  exact List.ofFn_get buf

theorem write_all_at_nil (f : List Nat) (offset : Nat) :
    write_all_at f offset [] = f := by
  simp [write_all_at]

theorem closeReleases_not_held (b : FileBackend) :
    ∀ n, closeReleases b false n = 0 := by
  intro n
  induction n with
  | zero => rfl
  | succ n ih => simp [closeReleases, closeStep, ite_self, ih]

theorem closeReleases_unsupported (b : FileBackend)
    (hb : b.lock_supported = false) : ∀ held n, closeReleases b held n = 0 := by
  intro held n
  induction n generalizing held with
  | zero => rfl
  | succ n ih => simp [closeReleases, closeStep, hb, ih]

/-! ### Claim theorems -/

/-- C3: `FileBackend::new` has exactly four outcomes, determined by the
lock attempt: lock acquired gives a backend with `lock_supported = true`;
`WouldBlock` gives the distinguished `DatabaseAlreadyOpen` error; an
`Unsupported` locking error still constructs, with `lock_supported = false`;
any other locking error is propagated as an I/O error. -/
theorem new_four_outcomes :
    FileBackend.new .ok = .success { lock_supported := true } ∧
    FileBackend.new .wouldBlock = .databaseAlreadyOpen ∧
    FileBackend.new (.error .unsupported) = .success { lock_supported := false } ∧
    ∀ k : ErrorKind, k ≠ .unsupported → FileBackend.new (.error k) = .ioError k := by
  refine ⟨rfl, rfl, rfl, ?_⟩
  intro k hk
  simp [FileBackend.new, hk]

theorem new_four_outcomes_witness :
    ErrorKind.other 5 ≠ ErrorKind.unsupported ∧
      FileBackend.new (.error (.other 5)) = .ioError (.other 5) :=
  ⟨by decide, new_four_outcomes.2.2.2 (.other 5) (by decide)⟩

/-- C5: `close` releases the advisory lock at most once across any number
of calls; with `lock_supported = false` the unlock step is a no-op and
`close` succeeds; with a lock acquired, an unlock failure is propagated. -/
theorem close_release_discipline :
    (∀ (b : FileBackend) (r : IOResult Unit), b.lock_supported = false →
      FileBackend.close b r = .ok ()) ∧
    (∀ (b : FileBackend) (held : Bool), b.lock_supported = false →
      closeStep b held = (held, false)) ∧
    (∀ b : FileBackend, b.lock_supported = true →
      FileBackend.close b .err = .err) ∧
    (∀ (b : FileBackend) (held : Bool) (n : Nat), closeReleases b held n ≤ 1) := by
  refine ⟨?_, ?_, ?_, ?_⟩
  · intro b r hb
    simp [FileBackend.close, hb]
  · intro b held hb
    simp [closeStep, hb]
  · intro b hb
    simp [FileBackend.close, hb]
  · intro b held n
    cases hb : b.lock_supported with
    | false => simp [closeReleases_unsupported b hb]
    | true =>
        cases n with
        | zero => simp [closeReleases]
        | succ n =>
            cases held with
            | false => simp [closeReleases_not_held]
            | true =>
                simp [closeReleases, closeStep, hb, closeReleases_not_held]

theorem close_release_discipline_witness :
    (FileBackend.close { lock_supported := false } .err = .ok () ∧
      closeStep { lock_supported := false } true = (true, false)) ∧
    FileBackend.close { lock_supported := true } .err = .err :=
  ⟨⟨close_release_discipline.1 _ .err rfl,
    close_release_discipline.2.1 _ true rfl⟩,
    close_release_discipline.2.2.1 _ rfl⟩

/-- C6: on platforms without a barrier primitive, `sync_data` performs the
full data sync regardless of the `eventual` flag; on macOS,
`sync_data(true)` uses `F_BARRIERFSYNC` and surfaces a `-1` return code as
an I/O error carrying the platform's last OS error, while
`sync_data(false)` performs the full data sync. -/
theorem sync_data_platforms :
    (∀ (e : Bool) (r : SyncResult),
      sync_data_generic e r = r ∧ sync_primitive_generic e = .fullSync) ∧
    (sync_primitive_macos true = .barrierFsync ∧
      ∀ (c : Int) (l : Nat) (r : SyncResult),
        sync_data_macos true c l r =
          if c = -1 then .ioError l else .ok) ∧
    (sync_primitive_macos false = .fullSync ∧
      ∀ (c : Int) (l : Nat) (r : SyncResult), sync_data_macos false c l r = r) := by
  refine ⟨fun e r => ⟨rfl, rfl⟩, ⟨rfl, fun c l r => rfl⟩, rfl, fun c l r => rfl⟩

/-- C8: for every target length `L`, larger or smaller than the previous
size, `set_len L` followed by `len()` returns exactly `L`. -/
theorem set_len_then_len (f : List Nat) (L : Nat) :
    FileBackend.lenOf (set_len f L) = L := by
  unfold FileBackend.lenOf set_len
  split
  · simp
    omega
  · simp
    omega

/-- C9: for every offset, including offsets at or beyond the file length,
a length-zero read succeeds with an empty buffer on both the
single-primitive (unix) and the retry-loop (windows) paths. -/
theorem read_len_zero_ok (f : List Nat) (offset : Nat) :
    FileBackend.read_unix f offset 0 = .ok [] ∧
    ∀ (sched : Nat → Nat) (fuel : Nat),
      FileBackend.read_windows f sched fuel offset 0 = some [] := by
  refine ⟨rfl, fun sched fuel => ?_⟩
  cases fuel <;> simp [FileBackend.read_windows, read_loop]

/-- C10: for every offset, a write of empty data succeeds and leaves the
file entirely unchanged, on both the single-primitive (unix) and the
retry-loop (windows) paths. -/
theorem write_empty_unchanged (f : List Nat) (offset : Nat) :
    FileBackend.write_unix f offset [] = f ∧
    ∀ (sched : Nat → Nat) (fuel : Nat),
      FileBackend.write_windows f sched fuel offset [] = some f := by
  refine ⟨write_all_at_nil f offset, fun sched fuel => ?_⟩
  cases fuel <;> simp [FileBackend.write_windows, write_loop]

theorem drop_of_le_length_nil (f : List Nat) (offset : Nat)
    (h : f.length ≤ offset) : f.drop offset = [] :=
  List.drop_eq_nil_of_le h

/-- C1 (refuting theorem): on the Windows retry-loop read path, once the
file offset is at or past EOF the `seek_read` primitive returns `Ok(0)` on
every call, and with the buffer not yet full the loop makes no progress:
for every fuel bound it terminates with neither a success nor an error —
the code re-issues zero-byte reads forever instead of returning the
EOF/I/O error the specification requires. -/
theorem windows_read_eof_diverges :
    ∀ (fuel : Nat) (f : List Nat) (sched : Nat → Nat)
      (offset dataOffset : Nat) (buffer : List Nat) (i : Nat),
      f.length ≤ offset → dataOffset < buffer.length →
      read_loop f sched fuel offset dataOffset buffer i = none := by
  intro fuel
  induction fuel with
  | zero =>
      intro f sched offset dataOffset buffer i _ hlt
      simp [read_loop, hlt]
  | succ n ih =>
      intro f sched offset dataOffset buffer i heof hlt
      have hchunk : seek_read_chunk f offset (buffer.length - dataOffset)
          (sched i) = [] := by
        simp [seek_read_chunk, drop_of_le_length_nil f offset heof]
      simp only [read_loop, if_pos hlt, hchunk, List.length_nil, Nat.add_zero,
        writeRange_nil]
      exact ih f sched offset dataOffset buffer (i + 1) heof hlt

theorem windows_read_eof_diverges_witness :
    (([] : List Nat).length ≤ 0 ∧ 0 < ([0] : List Nat).length) ∧
      read_loop [] (fun _ => 8) 5 0 0 [0] 0 = none :=
  ⟨⟨by decide, by decide⟩,
    windows_read_eof_diverges 5 [] (fun _ => 8) 0 0 [0] 0 (by decide) (by decide)⟩

/-- C2 (refuting theorem): on the Windows retry-loop write path, if the
`seek_write` primitive makes zero bytes of progress on every call while
data remains, the loop makes no progress: for every fuel bound it
terminates with neither a success nor an error — the code re-issues
zero-byte writes forever instead of returning the error the specification
requires. -/
theorem windows_write_zero_progress_diverges :
    ∀ (fuel : Nat) (sched : Nat → Nat) (f : List Nat)
      (offset dataOffset : Nat) (data : List Nat) (i : Nat),
      (∀ j, sched j = 0) → dataOffset < data.length →
      write_loop sched fuel offset dataOffset data f i = none := by
  intro fuel
  induction fuel with
  | zero =>
      intro sched f offset dataOffset data i _ hlt
      simp [write_loop, hlt]
  | succ n ih =>
      intro sched f offset dataOffset data i hs hlt
      simp only [write_loop, if_pos hlt, hs, Nat.min_zero, List.take_zero,
        write_all_at_nil, Nat.add_zero]
      exact ih sched f offset dataOffset data (i + 1) hs hlt

theorem windows_write_zero_progress_diverges_witness :
    ((∀ j : Nat, (fun _ : Nat => 0) j = 0) ∧ 0 < ([7] : List Nat).length) ∧
      write_loop (fun _ => 0) 5 0 0 [7] [] 0 = none :=
  ⟨⟨fun _ => rfl, by decide⟩,
    windows_write_zero_progress_diverges 5 (fun _ => 0) [] 0 0 [7] 0
      (fun _ => rfl) (by decide)⟩

theorem read_loop_length_eq (f : List Nat) (sched : Nat → Nat) :
    ∀ (fuel offset dataOffset : Nat) (buffer : List Nat) (i : Nat)
      (buf : List Nat),
      read_loop f sched fuel offset dataOffset buffer i = some buf →
      buf.length = buffer.length := by
  intro fuel
  induction fuel with
  | zero =>
      intro offset dataOffset buffer i buf h
      by_cases hlt : dataOffset < buffer.length
      · simp [read_loop, hlt] at h
      · simp only [read_loop, if_neg hlt, Option.some.injEq] at h
        rw [h]
  | succ n ih =>
      intro offset dataOffset buffer i buf h
      by_cases hlt : dataOffset < buffer.length
      · simp only [read_loop, if_pos hlt] at h
        have := ih _ _ _ _ _ h
        rwa [length_writeRange] at this
      · simp only [read_loop, if_neg hlt, Option.some.injEq] at h
        rw [h]

/-- C4: `read` either returns a buffer of exactly the requested length or
an error; it never returns a short buffer as success, on both the
single-primitive (unix) path and the retry-loop (windows) path. -/
theorem read_full_length_or_error :
    (∀ (f : List Nat) (offset len : Nat) (buf : List Nat),
      FileBackend.read_unix f offset len = .ok buf → buf.length = len) ∧
    (∀ (f : List Nat) (sched : Nat → Nat) (fuel offset len : Nat)
      (buf : List Nat),
      FileBackend.read_windows f sched fuel offset len = some buf →
      buf.length = len) := by
  constructor
  · intro f offset len buf h
    unfold FileBackend.read_unix read_exact_at at h
    split at h
    · cases h
      simp_all
    · split at h
      · cases h
        simp
        omega
      · cases h
  · intro f sched fuel offset len buf h
    have := read_loop_length_eq f sched fuel offset 0 (List.replicate len 0) 0
      buf h
    simpa using this

theorem read_full_length_or_error_witness :
    ([2, 3] : List Nat).length = 2 ∧ ([1] : List Nat).length = 1 :=
  ⟨read_full_length_or_error.1 [1, 2, 3] 1 2 [2, 3] rfl,
    read_full_length_or_error.2 [1] (fun _ => 4) 1 0 1 [1] rfl⟩

theorem getD_take_of_lt (l : List Nat) (n i : Nat) (h : i < n) :
    (l.take n).getD i 0 = l.getD i 0 := by
  simp [List.getD_eq_getElem?_getD, List.getElem?_take, h]

theorem getD_drop_eq (l : List Nat) (n i : Nat) :
    (l.drop n).getD i 0 = l.getD (n + i) 0 := by
  simp [List.getD_eq_getElem?_getD, List.getElem?_drop]

theorem getD_writeRange (buf chunk : List Nat) (i j : Nat)
    (hj : j < buf.length) :
    (writeRange buf i chunk).getD j 0 =
      if i ≤ j ∧ j < i + chunk.length then chunk.getD (j - i) 0
      else buf.getD j 0 := by
  have hlen : j < (writeRange buf i chunk).length := by
    rw [length_writeRange]
    exact hj
  rw [List.getD_eq_getElem _ _ hlen]
  unfold writeRange
  rw [List.getElem_ofFn]
  by_cases hc : i ≤ j ∧ j < i + chunk.length
  · simp [hc]
  · simp only [hc, if_false, ite_false]
    rw [List.get_eq_getElem, List.getD_eq_getElem _ _ hj]

theorem length_write_all_at (f data : List Nat) (offset : Nat) :
    (write_all_at f offset data).length =
      if data.isEmpty then f.length
      else max f.length (offset + data.length) := by
  unfold write_all_at
  split <;> simp_all

theorem getD_write_all_at (f data : List Nat) (offset j : Nat) :
    (write_all_at f offset data).getD j 0 =
      if offset ≤ j ∧ j < offset + data.length then data.getD (j - offset) 0
      else f.getD j 0 := by
  by_cases hd : data.isEmpty
  · have hnil : data = [] := by simpa using hd
    subst hnil
    rw [write_all_at_nil,
      if_neg (by simp only [List.length_nil, Nat.add_zero]; omega)]
  · unfold write_all_at
    rw [if_neg hd]
    by_cases hj : j < max f.length (offset + data.length)
    · rw [List.getD_eq_getElem _ _ (by simpa [List.length_ofFn] using hj)]
      rw [List.getElem_ofFn]
    · have h1 : max f.length (offset + data.length) ≤ j := le_of_not_lt hj
      rw [List.getD_eq_default _ _ (by simpa [List.length_ofFn] using h1)]
      rw [if_neg (by omega), List.getD_eq_default _ _ (by omega)]

theorem list_eq_of_getD (l₁ l₂ : List Nat) (hlen : l₁.length = l₂.length)
    (h : ∀ j, j < l₁.length → l₁.getD j 0 = l₂.getD j 0) : l₁ = l₂ := by
  apply List.ext_getElem hlen
  intro n h₁ h₂
  have hn := h n h₁
  rwa [List.getD_eq_getElem _ _ h₁, List.getD_eq_getElem _ _ h₂] at hn

theorem read_unix_of_getD (f data : List Nat) (offset : Nat)
    (hlen : offset + data.length ≤ f.length)
    (hco : ∀ j, j < data.length → f.getD (offset + j) 0 = data.getD j 0) :
    FileBackend.read_unix f offset data.length = .ok data := by
  unfold FileBackend.read_unix read_exact_at
  by_cases h0 : data.length = 0
  · rw [if_pos h0]
    have hnil : data = [] := List.length_eq_zero.mp h0
    rw [hnil]
  · rw [if_neg h0, if_pos hlen]
    congr 1
    apply list_eq_of_getD
    · simp
      omega
    · intro j hj
      have hjlen : j < data.length := by
        simp at hj
        omega
      rw [getD_take_of_lt _ _ _ hjlen, getD_drop_eq]
      exact hco j hjlen

theorem write_loop_invariant (sched : Nat → Nat) (o : Nat) (data f0 : List Nat)
    (hfit : o + data.length ≤ f0.length) :
    ∀ (fuel dOff : Nat) (f : List Nat) (i : Nat) (f' : List Nat),
      dOff ≤ data.length →
      f.length = f0.length →
      (∀ j, f.getD j 0 =
        if o ≤ j ∧ j < o + dOff then data.getD (j - o) 0 else f0.getD j 0) →
      write_loop sched fuel (o + dOff) dOff data f i = some f' →
      f'.length = f0.length ∧
      ∀ j, f'.getD j 0 =
        if o ≤ j ∧ j < o + data.length then data.getD (j - o) 0
        else f0.getD j 0 := by
  intro fuel
  induction fuel with
  | zero =>
      intro dOff f i f' hle hflen hinv h
      by_cases hlt : dOff < data.length
      · simp [write_loop, hlt] at h
      · simp only [write_loop, if_neg hlt, Option.some.injEq] at h
        have hdoff : dOff = data.length := by omega
        subst hdoff
        subst h
        exact ⟨hflen, hinv⟩
  | succ n ih =>
      intro dOff f i f' hle hflen hinv h
      by_cases hlt : dOff < data.length
      · simp only [write_loop, if_pos hlt] at h
        generalize hmin : min (data.length - dOff) (sched i) = m at h
        have hm : m ≤ data.length - dOff := by
          rw [← hmin]
          exact Nat.min_le_left _ _
        rw [Nat.add_assoc] at h
        have hchlen : ((data.drop dOff).take m).length = m := by
          simp only [List.length_take, List.length_drop]
          omega
        have hwle : dOff + m ≤ data.length := by omega
        have hf1len :
            (write_all_at f (o + dOff) ((data.drop dOff).take m)).length =
              f0.length := by
          rw [length_write_all_at]
          by_cases hce : ((data.drop dOff).take m).isEmpty
          · rw [if_pos hce]
            exact hflen
          · rw [if_neg hce, hchlen]
            omega
        have hinv₁ : ∀ j,
            (write_all_at f (o + dOff) ((data.drop dOff).take m)).getD j 0 =
              if o ≤ j ∧ j < o + (dOff + m) then data.getD (j - o) 0
              else f0.getD j 0 := by
          intro j
          rw [getD_write_all_at, hchlen]
          by_cases hc1 : o + dOff ≤ j ∧ j < o + dOff + m
          · rw [if_pos hc1]
            have hidx : j - (o + dOff) < m := by omega
            rw [getD_take_of_lt _ _ _ hidx, getD_drop_eq]
            rw [if_pos (by omega)]
            have harith : dOff + (j - (o + dOff)) = j - o := by omega
            rw [harith]
          · rw [if_neg hc1, hinv j]
            by_cases hc2 : o ≤ j ∧ j < o + dOff
            · rw [if_pos hc2, if_pos (by omega)]
            · rw [if_neg hc2, if_neg (by omega)]
        exact ih (dOff + m) _ (i + 1) f' hwle hf1len hinv₁ h
      · simp only [write_loop, if_neg hlt, Option.some.injEq] at h
        have hdoff : dOff = data.length := by omega
        subst hdoff
        subst h
        exact ⟨hflen, hinv⟩

theorem read_loop_fills (f : List Nat) (sched : Nat → Nat)
    (hsched : ∀ i, 1 ≤ sched i) (o len : Nat) (hfit : o + len ≤ f.length) :
    ∀ (fuel dOff : Nat) (buffer : List Nat) (i : Nat),
      buffer.length = len →
      dOff ≤ len →
      len - dOff ≤ fuel →
      (∀ j, j < dOff → buffer.getD j 0 = f.getD (o + j) 0) →
      ∃ buf, read_loop f sched fuel (o + dOff) dOff buffer i = some buf ∧
        buf.length = len ∧ ∀ j, j < len → buf.getD j 0 = f.getD (o + j) 0 := by
  intro fuel
  induction fuel with
  | zero =>
      intro dOff buffer i hblen hdle hfuel hinv
      have hdoff : dOff = len := by omega
      have hnlt : ¬ dOff < buffer.length := by omega
      refine ⟨buffer, by simp [read_loop, hnlt], hblen, ?_⟩
      intro j hj
      exact hinv j (by omega)
  | succ n ih =>
      intro dOff buffer i hblen hdle hfuel hinv
      by_cases hlt : dOff < len
      · have hblt : dOff < buffer.length := by omega
        have hchlen : (seek_read_chunk f (o + dOff) (buffer.length - dOff)
            (sched i)).length = min (len - dOff) (sched i) := by
          simp only [seek_read_chunk, List.length_take, List.length_drop,
            hblen]
          omega
        have hc1 : 1 ≤ min (len - dOff) (sched i) := by
          have := hsched i
          omega
        have hcle : min (len - dOff) (sched i) ≤ len - dOff :=
          Nat.min_le_left _ _
        have hinv₁ : ∀ j, j < dOff + min (len - dOff) (sched i) →
            (writeRange buffer dOff (seek_read_chunk f (o + dOff)
              (buffer.length - dOff) (sched i))).getD j 0 = f.getD (o + j) 0 := by
          intro j hj
          rw [getD_writeRange _ _ _ _ (by omega), hchlen]
          by_cases hcase : dOff ≤ j ∧ j < dOff + min (len - dOff) (sched i)
          · rw [if_pos hcase]
            have hidx : j - dOff < min (buffer.length - dOff) (sched i) := by
              rw [hblen]
              omega
            simp only [seek_read_chunk]
            rw [getD_take_of_lt _ _ _ hidx, getD_drop_eq]
            have harith : o + dOff + (j - dOff) = o + j := by omega
            rw [harith]
          · rw [if_neg hcase]
            exact hinv j (by omega)
        obtain ⟨buf, heq, hbuflen, hcont⟩ :=
          ih (dOff + min (len - dOff) (sched i))
            (writeRange buffer dOff (seek_read_chunk f (o + dOff)
              (buffer.length - dOff) (sched i)))
            (i + 1)
            (by rw [length_writeRange]; exact hblen)
            (by omega) (by omega) hinv₁
        refine ⟨buf, ?_, hbuflen, hcont⟩
        simp only [read_loop, if_pos hblt]
        rw [hchlen, Nat.add_assoc]
        exact heq
      · have hdoff : dOff = len := by omega
        have hnlt : ¬ dOff < buffer.length := by omega
        refine ⟨buffer, by simp [read_loop, hnlt], hblen, ?_⟩
        intro j hj
        exact hinv j (by omega)

/-- C7: for all offsets `o` and lengths `n` with `o + n ≤ len()`, a
successful write of `n` bytes at `o` followed by a read of `n` bytes at
`o` returns exactly the bytes written: on the single-primitive (unix)
path directly, and on the retry-loop (windows) path for every short-write
schedule, every terminating run of the write loop followed by every
progressing short-read schedule given enough fuel. -/
theorem write_read_round_trip :
    (∀ (f data : List Nat) (offset : Nat),
      offset + data.length ≤ FileBackend.lenOf f →
      FileBackend.read_unix (FileBackend.write_unix f offset data) offset
        data.length = .ok data) ∧
    (∀ (f data : List Nat) (offset : Nat) (sched : Nat → Nat) (fuel : Nat)
      (f' : List Nat) (sched' : Nat → Nat) (fuel' : Nat),
      offset + data.length ≤ FileBackend.lenOf f →
      (∀ i, 1 ≤ sched' i) →
      data.length ≤ fuel' →
      FileBackend.write_windows f sched fuel offset data = some f' →
      FileBackend.read_windows f' sched' fuel' offset data.length =
        some data) := by
  constructor
  · intro f data offset hfit
    unfold FileBackend.write_unix
    apply read_unix_of_getD
    · rw [length_write_all_at]
      by_cases hce : data.isEmpty
      · rw [if_pos hce]
        have hn : data = [] := by simpa using hce
        subst hn
        simpa using hfit
      · rw [if_neg hce]
        omega
    · intro j hj
      rw [getD_write_all_at, if_pos (by omega)]
      have harith : offset + j - offset = j := by omega
      rw [harith]
  · intro f data offset sched fuel f' sched' fuel' hfit hs hfl hw
    unfold FileBackend.write_windows at hw
    obtain ⟨hflen', hchar⟩ :=
      write_loop_invariant sched offset data f hfit fuel 0 f 0 f'
        (Nat.zero_le _) rfl (fun j => by rw [if_neg (by omega)]) hw
    obtain ⟨buf, heq, hblen, hcont⟩ :=
      read_loop_fills f' sched' hs offset data.length
        (by rw [hflen']; exact hfit) fuel' 0
        (List.replicate data.length 0) 0 (by simp) (Nat.zero_le _)
        (by omega) (fun j hj => absurd hj (Nat.not_lt_zero j))
    have hbd : buf = data := by
      apply list_eq_of_getD _ _ (by rw [hblen])
      intro j hj
      rw [hblen] at hj
      rw [hcont j hj, hchar (offset + j), if_pos (by omega)]
      have harith : offset + j - offset = j := by omega
      rw [harith]
    unfold FileBackend.read_windows
    subst hbd
    exact heq

theorem write_read_round_trip_witness :
    FileBackend.read_unix (FileBackend.write_unix [0, 0, 0] 1 [5, 6]) 1 2 =
      .ok [5, 6] ∧
    FileBackend.read_windows [0, 5, 6] (fun _ => 1) 2 1 2 = some [5, 6] :=
  ⟨write_read_round_trip.1 [0, 0, 0] [5, 6] 1 (by decide),
    write_read_round_trip.2 [0, 0, 0] [5, 6] 1 (fun _ => 1) 5 [0, 5, 6]
      (fun _ => 1) 2 (by decide) (fun _ => Nat.le_refl 1) (by decide)
      (by decide)⟩
